import Mathlib

/-!
Verification of the coherent_rates repository (src/coherent_rates/system.py)
against its natural-language specification.

The definitions below are a shallow embedding of system.py.  Machine floats
are modelled by real numbers (ℝ) and Python ints by ℕ/ℤ; the claims speak of
results "within floating-point tolerance", which becomes exact equality in
this real-arithmetic model.  The external library
surface_potential_analysis is not part of the repository; every definition
taken from it is marked "Modelled from the spec:" and follows the
specification text, not any library source.
-/

noncomputable section

open Finset

/-- Planck constant over 2 pi, as in scipy.constants.hbar. -/
def hbar : ℝ := 1.0545718176461565e-34

/-- Electron volt in joules, as in scipy.constants.electron_volt. -/
def electron_volt : ℝ := 1.602176634e-19

/-- Represents the properties of a 1D Periodic System (system.py, PeriodicSystem). -/
structure PeriodicSystem where
  id : String
  barrier_energy : ℝ
  lattice_constant : ℝ
  mass : ℝ

/-- Configure the simulation-specific detail of the system
(system.py, PeriodicSystemConfig).  The source stores shape and resolution as
one-element tuples; we keep the single entry of each. -/
structure PeriodicSystemConfig where
  shape : ℕ
  resolution : ℕ
  n_bands : ℕ
  temperature : ℝ

/-- The hydrogen-on-nickel preset (system.py, HYDROGEN_NICKEL_SYSTEM). -/
def HYDROGEN_NICKEL_SYSTEM : PeriodicSystem :=
  ⟨"HNi", 2.5593864192e-20, 2.46e-10 / Real.sqrt 2, 1.67e-27⟩

/-- The sodium-on-copper preset (system.py, SODIUM_COPPER_SYSTEM). -/
def SODIUM_COPPER_SYSTEM : PeriodicSystem :=
  ⟨"NaCu", 55e-3 * electron_volt, 3.615e-10, 3.8175458e-26⟩

/-- The lithium-on-copper preset (system.py, LITHIUM_COPPER_SYSTEM). -/
def LITHIUM_COPPER_SYSTEM : PeriodicSystem :=
  ⟨"LiCu", 45e-3 * electron_volt, 3.615e-10, 1.152414898e-26⟩

/-- A 1D plane-wave (transformed position) basis: fundamental cell length
delta_x, n stored plane-wave coefficients, laid out FFT-style inside a
fundamental grid of fundamental_n points.  FundamentalTransformedPositionBasis
is the case n = fundamental_n; TransformedPositionBasis1d(delta_x, n, m) is
⟨delta_x, n, m⟩. -/
structure PlaneWaveBasis where
  delta_x : ℝ
  n : ℕ
  fundamental_n : ℕ

/-- A potential: basis plus complex coefficient array (data index i < basis.n). -/
structure Potential where
  basis : PlaneWaveBasis
  data : ℕ → ℂ

/-- The signed frequency of FFT-layout index i in a length-n coefficient
array: indices below (n+1)/2 are the nonnegative frequencies 0,1,...; the
rest are the negative frequencies i - n (numpy fft ordering). -/
def freqZ (i n : ℕ) : ℤ :=
  if i < (n + 1) / 2 then (i : ℤ) else (i : ℤ) - n

/-- The coefficient pattern [2, -1, -1] of the 3-term potential, zero beyond
index 2 (system.py line 124, np.array([2, -1, -1])). -/
def potentialCoeff (i : ℕ) : ℝ :=
  if i = 0 then 2 else if i = 1 then -1 else if i = 2 then -1 else 0

/-- system.py, get_potential: the 3-term truncated plane-wave potential of one
unit cell, data = 0.25 * barrier_energy * [2, -1, -1] * sqrt 3 on a
FundamentalTransformedPositionBasis1d with delta_x = sqrt 3 * lattice_constant / 2. -/
def get_potential (system : PeriodicSystem) : Potential :=
  let delta_x := Real.sqrt 3 * system.lattice_constant / 2
  { basis := ⟨delta_x, 3, 3⟩,
    data := fun i => ((0.25 * system.barrier_energy * potentialCoeff i * Real.sqrt 3 : ℝ) : ℂ) }

/-- The fundamental momentum basis of a plane-wave basis
(stacked_basis_as_fundamental_momentum_basis): same cell, all fundamental_n
plane waves stored. -/
def fundamentalMomentumBasis (b : PlaneWaveBasis) : PlaneWaveBasis :=
  ⟨b.delta_x, b.fundamental_n, b.fundamental_n⟩

/-- Modelled from the spec: convert_potential_to_basis of the basis library.
Per the spec, potentials are "convertible between position and
momentum/plane-wave bases losslessly up to truncation", with Parseval-consistent
amplitude rescaling by sqrt(new_fundamental/old_fundamental) so the represented
physical potential is preserved: the physical amplitude of frequency k is
data i / sqrt(fundamental_n) at the stored index i with freqZ i n = k.
Conversion keeps every frequency representable in the target basis and drops
the rest. -/
def convert_potential_to_basis (p : Potential) (b : PlaneWaveBasis) : Potential :=
  { basis := b,
    data := fun j =>
      if j < b.n then
        ((Real.sqrt ((b.fundamental_n : ℝ) / (p.basis.fundamental_n : ℝ)) : ℝ) : ℂ) *
          ∑ i in Finset.range p.basis.n,
            (if freqZ i p.basis.n = freqZ j b.n then p.data i else 0)
      else 0 }

/-- system.py, get_interpolated_potential: re-express the 3-term potential on a
finer plane-wave grid of the given resolution.  The data is first rescaled by
sqrt(resolution / 3) (the explicit np.sqrt(resolution[0] / old.n) of the
source), placed on TransformedPositionBasis1d(delta_x, 3, resolution), and then
converted to the fundamental momentum basis of that resolution. -/
def get_interpolated_potential (system : PeriodicSystem) (resolution : ℕ) : Potential :=
  let potential := get_potential system
  let old := potential.basis
  let basis : PlaneWaveBasis := ⟨old.delta_x, old.n, resolution⟩
  let scaled : ℕ → ℂ := fun i =>
    potential.data i * ((Real.sqrt ((resolution : ℝ) / (old.n : ℝ)) : ℝ) : ℂ)
  convert_potential_to_basis ⟨basis, scaled⟩ (fundamentalMomentumBasis basis)

/-- system.py, get_extended_interpolated_potential: extend the interpolated
potential over shape repeated cells.  The source builds
EvenlySpacedTransformedPositionBasis(delta_x * shape, n = old.n, step = shape,
offset = 0), whose fundamental grid has n * step = resolution * shape points,
and rescales the data by sqrt(basis.fundamental_n / old.n) = sqrt shape. -/
def get_extended_interpolated_potential (system : PeriodicSystem)
    (shape resolution : ℕ) : Potential :=
  let interpolated := get_interpolated_potential system resolution
  let old := interpolated.basis
  let basis : PlaneWaveBasis := ⟨old.delta_x * shape, old.n, old.n * shape⟩
  let scaled : ℕ → ℂ := fun i =>
    interpolated.data i * ((Real.sqrt ((basis.fundamental_n : ℝ) / (old.n : ℝ)) : ℝ) : ℂ)
  ⟨basis, scaled⟩

/-- A potential converted to the fundamental position basis: size position
points over a cell of length delta_x. -/
structure PositionPotential where
  size : ℕ
  delta_x : ℝ
  data : ℕ → ℂ

/-- Modelled from the spec: conversion of a plane-wave potential to its
fundamental position basis (convert_potential_to_basis with
stacked_basis_as_fundamental_position_basis), an FFT-based inverse transform:
position value j is the orthonormal inverse DFT of the stored coefficients at
their (step-spaced) frequencies, with step = fundamental_n / n. -/
def convert_potential_to_position (p : Potential) : PositionPotential :=
  { size := p.basis.fundamental_n,
    delta_x := p.basis.delta_x,
    data := fun j =>
      ((Real.sqrt (p.basis.fundamental_n : ℝ) : ℝ) : ℂ)⁻¹ *
        ∑ i in Finset.range p.basis.n,
          p.data i * Complex.exp (2 * Real.pi * Complex.I *
            ((freqZ i p.basis.n * ((p.basis.fundamental_n / p.basis.n : ℕ) : ℤ) : ℤ) : ℂ) *
            (j : ℂ) / (p.basis.fundamental_n : ℂ)) }

/-- A dense operator over a basis of the given size (SingleBasisOperator). -/
structure BasisOperator where
  size : ℕ
  mat : ℕ → ℕ → ℂ

/-- Modelled from the spec: the kinetic energy of plane wave k of an N-point
cell of length delta_x at Bloch fraction kappa, hbar^2 (2 pi (k + kappa) / L)^2 / (2 m). -/
def kinetic_energy (mass delta_x : ℝ) (nPoints : ℕ) (blochFraction : ℝ) (k : ℕ) : ℝ :=
  hbar ^ 2 * (2 * Real.pi * (((freqZ k nPoints : ℤ) : ℝ) + blochFraction) / delta_x) ^ 2 /
    (2 * mass)

/-- Modelled from the spec: total_surface_hamiltonian of the hamiltonian
builder library combines the position-basis potential (diagonal in position)
with the mass-dependent kinetic-energy operator at the supplied Bloch phase
offset (kinetic diagonal in momentum, transported to the position basis by the
DFT kernel). -/
def total_surface_hamiltonian (converted : PositionPotential) (mass : ℝ)
    (blochFraction : ℝ) : BasisOperator :=
  { size := converted.size,
    mat := fun i j =>
      (if i = j then converted.data i else 0) +
        ((converted.size : ℂ))⁻¹ *
          ∑ k in Finset.range converted.size,
            ((kinetic_energy mass converted.delta_x converted.size blochFraction k : ℝ) : ℂ) *
              Complex.exp (2 * Real.pi * Complex.I * (((i : ℤ) - (j : ℤ) : ℤ) : ℂ) *
                ((freqZ k converted.size : ℤ) : ℂ) / (converted.size : ℂ)) }

/-- system.py, _get_full_hamiltonian: build the extended interpolated
potential, convert it to the fundamental position basis, and hand it to
total_surface_hamiltonian together with the mass and the Bloch fraction; an
unspecified (none) Bloch fraction is replaced by the zero vector. -/
def get_full_hamiltonian (system : PeriodicSystem) (shape resolution : ℕ)
    (blochFraction : Option ℝ) : BasisOperator :=
  let kappa : ℝ := blochFraction.getD 0
  let potential := get_extended_interpolated_potential system shape resolution
  let converted := convert_potential_to_position potential
  total_surface_hamiltonian converted system.mass kappa

/-- An evenly spaced basis descriptor (EvenlySpacedBasis(n, step, offset)). -/
structure EvenlySpacedBasisSpec where
  n : ℕ
  step : ℕ
  offset : ℕ

/-- The result of generate_wavepacket: the number of Bloch-fraction samples,
the descriptor of the retained bands, and, per sample index, the Hamiltonian
that is diagonalized there.  Modelled from the spec: generate_wavepacket
diagonalizes the generated Hamiltonian at every Bloch fraction of the regular
grid and retains, from the ascending eigenvalue order, the eigenpairs whose
band indices are save_bands.offset + save_bands.step * j; the eigensolver
itself belongs to the trusted library, so the record keeps the diagonalized
operators and the retained band indices rather than numeric eigenpairs. -/
structure BlochWavefunctionList where
  listSize : ℕ
  bands : EvenlySpacedBasisSpec
  hamiltonianAt : ℕ → BasisOperator

/-- The band index of the j-th retained eigenpair of a BlochWavefunctionList. -/
def BlochWavefunctionList.bandIndex (w : BlochWavefunctionList) (j : ℕ) : ℕ :=
  w.bands.offset + w.bands.step * j

/-- The i-th Bloch fraction of a regular grid of the given size (the fractions
of fundamental_stacked_basis_from_shape). -/
def blochFractionAt (size i : ℕ) : ℝ := (i : ℝ) / (size : ℝ)

/-- Modelled from the spec: generate_wavepacket sweeps the regular grid of
list_size Bloch fractions, diagonalizing the generated Hamiltonian at each and
keeping the save_bands eigenpairs. -/
def generate_wavepacket (gen : ℝ → BasisOperator)
    (save_bands : EvenlySpacedBasisSpec) (list_size : ℕ) : BlochWavefunctionList :=
  { listSize := list_size,
    bands := save_bands,
    hamiltonianAt := fun i => gen (blochFractionAt list_size i) }

/-- system.py, hamiltonian_generator (the closure inside
get_bloch_wavefunctions): the full Hamiltonian over a single unit cell,
shape (1,), at config.resolution and the given Bloch fraction. -/
def hamiltonian_generator (system : PeriodicSystem) (config : PeriodicSystemConfig)
    (blochFraction : ℝ) : BasisOperator :=
  get_full_hamiltonian system 1 config.resolution (some blochFraction)

/-- system.py, get_bloch_wavefunctions: generate_wavepacket over the
hamiltonian_generator closure, with save_bands = EvenlySpacedBasis(n_bands, 1, 0)
and list basis fundamental_stacked_basis_from_shape(config.shape). -/
def get_bloch_wavefunctions (system : PeriodicSystem)
    (config : PeriodicSystemConfig) : BlochWavefunctionList :=
  generate_wavepacket (hamiltonian_generator system config)
    ⟨config.n_bands, 1, 0⟩ config.shape

/-- An evenly spaced time basis (EvenlySpacedTimeBasis(n, step, offset,
delta_t)): n output times taken with the given step multiplier and offset from
a fundamental grid of n * step points spanning the total duration delta_t. -/
structure EvenlySpacedTimeBasis where
  n : ℕ
  step : ℕ
  offset : ℤ
  delta_t : ℝ

/-- Modelled from the spec: the output times of an evenly spaced time basis,
"evenly spaced time grid: count, step multiplier, offset, total duration"; the
i-th time is delta_t * (offset + step * i) / (n * step), so consecutive times
are delta_t / n apart and the first time is nonzero exactly when the offset is
nonzero. -/
def EvenlySpacedTimeBasis.times (b : EvenlySpacedTimeBasis) (i : ℕ) : ℝ :=
  b.delta_t * ((b.offset : ℝ) + (b.step : ℝ) * (i : ℝ)) / ((b.n : ℝ) * (b.step : ℝ))

/-- A state vector: basis size plus complex coefficient vector (StateVector). -/
structure StateVector where
  size : ℕ
  data : ℕ → ℂ

/-- Modelled from the spec: calculate_normalization of the state-vector
library, the squared L2 norm, the sum of the squared magnitudes of the
coefficients. -/
def calculate_normalization (st : StateVector) : ℝ :=
  ∑ i in Finset.range st.size, Complex.abs (st.data i) ^ 2

/-- A diagonal Hamiltonian: the eigenbasis size and the real eigenvalues
(SingleBasisDiagonalOperator). -/
structure DiagonalHamiltonian where
  size : ℕ
  eigenvalues : ℕ → ℝ

/-- Modelled from the spec: solve_schrodinger_equation_diagonal of the
dynamics library multiplies each eigencomponent of the initial state by
exp(-i E t / hbar) for every requested time, one output state per time index.
States are represented by their coefficients in the diagonal Hamiltonian's
eigenbasis; the library's projection onto that eigenbasis and back is unitary
per the spec, so L2 norms agree with the original basis. -/
def solve_schrodinger_equation_diagonal (initial : StateVector)
    (times : EvenlySpacedTimeBasis) (h : DiagonalHamiltonian) : ℕ → StateVector :=
  fun ti =>
    ⟨initial.size, fun k =>
      initial.data k *
        Complex.exp (((-(h.eigenvalues k * times.times ti) / hbar : ℝ) : ℂ) * Complex.I)⟩

/-- system.py, solve_schrodinger_equation: obtain the diagonal Hamiltonian and
delegate to solve_schrodinger_equation_diagonal.  In the source the diagonal
Hamiltonian comes from get_hamiltonian(system, config) (library
diagonalization of the Bloch problem, not embeddable); it is therefore taken
as a parameter here. -/
def solve_schrodinger_equation (hamiltonian : DiagonalHamiltonian)
    (initial : StateVector) (times : EvenlySpacedTimeBasis) : ℕ → StateVector :=
  solve_schrodinger_equation_diagonal initial times hamiltonian

/-- The number of points of the fundamental position basis of the extended
cell: the state samplers build the extended interpolated potential and take
the size of its fundamental position basis
(stacked_basis_as_fundamental_position_basis), which is
resolution * shape. -/
def extendedCellSize (system : PeriodicSystem) (config : PeriodicSystemConfig) : ℕ :=
  (get_extended_interpolated_potential system config.shape config.resolution).basis.fundamental_n

/-- The number of step-state sites: 1 when the fraction is absent, otherwise
int(fraction * N) (Python int truncates toward zero; on the nonnegative
fractions of the claims this is the floor). -/
def stepCount (fraction : Option ℚ) (N : ℕ) : ℕ :=
  match fraction with
  | none => 1
  | some f => (⌊f * (N : ℚ)⌋).toNat

/-- system.py, get_step_state: a state over the fundamental position basis of
the extended cell (N = extendedCellSize points) whose first
n = stepCount fraction N entries are 1 / sqrt n and whose remaining entries
stay zero.  The source fills a length-N numpy array in a loop over range(n);
when n exceeds N the assignment data[N] raises IndexError, modelled here as
none. -/
def get_step_state (system : PeriodicSystem) (config : PeriodicSystemConfig)
    (fraction : Option ℚ) : Option StateVector :=
  let N := extendedCellSize system config
  let n := stepCount fraction N
  if n ≤ N then
    some ⟨N, fun i => if i < n then (((Real.sqrt (n : ℝ))⁻¹ : ℝ) : ℂ) else 0⟩
  else none

/-- The unnormalized Gaussian envelope of get_step_state's sibling
get_gaussian_state: entry i is exp(-(i - N/2)^2 / (2 width^2)) with
width = N * fraction (system.py lines 276-283). -/
def gaussianEnvelope (N : ℕ) (fraction : ℝ) (i : ℕ) : ℝ :=
  Real.exp (-((i : ℝ) - (N : ℝ) / 2) ^ 2 / (2 * ((N : ℝ) * fraction) * ((N : ℝ) * fraction)))

/-- system.py, get_gaussian_state: fill the length-N array with the Gaussian
envelope centered at N/2 of width N * fraction, then divide by the square root
of the computed normalization. -/
def get_gaussian_state (system : PeriodicSystem) (config : PeriodicSystemConfig)
    (fraction : ℝ) : StateVector :=
  let N := extendedCellSize system config
  let raw : StateVector := ⟨N, fun i => ((gaussianEnvelope N fraction i : ℝ) : ℂ)⟩
  ⟨N, fun i => raw.data i / ((Real.sqrt (calculate_normalization raw) : ℝ) : ℂ)⟩

/-- An ISF time series: a value list over an evenly spaced time basis. -/
structure ValueListData where
  basis : EvenlySpacedTimeBasis
  data : ℕ → ℂ

/-- The output of the external nonlinear least-squares fit: the two fitted
parameters a (amplitude) and b (decay time, in index units) of
a * exp(-(x / b)^2 / 2) fitted to the magnitudes of the series against index
positions range(len(xdata)), and the diagonal entries of the covariance
matrix.  Modelled from the spec: scipy.optimize.curve_fit is the trusted
optimization library, so its converged result is a parameter of the
embedding. -/
structure CurveFitResult where
  a : ℝ
  cov00 : ℝ
  b : ℝ
  cov11 : ℝ

/-- system.py, get_gaussian_fit: return the fitted amplitude, its standard
error, and the index-unit decay time and its standard error both multiplied by
dt = times.times[1], the second point of the time grid (source line 370). -/
def get_gaussian_fit (values : ValueListData) (fit : CurveFitResult) :
    ℝ × ℝ × ℝ × ℝ :=
  let times := values.basis
  let dt := times.times 1
  (fit.a, Real.sqrt fit.cov00, fit.b * dt, Real.sqrt fit.cov11 * dt)

/-- C4: get_potential returns exactly the 3-term plane-wave potential whose
coefficient vector is 0.25 * barrier_energy * [2, -1, -1] * sqrt 3 on a 1D
transformed-position basis whose fundamental spacing is
sqrt 3 * lattice_constant / 2, and the result depends only on the system
record, so two calls with identical systems give identical output. -/
theorem get_potential_formula (s t : PeriodicSystem) (h : s = t) :
    (get_potential s).basis.delta_x = Real.sqrt 3 * s.lattice_constant / 2 ∧
    (get_potential s).basis.n = 3 ∧
    (get_potential s).basis.fundamental_n = 3 ∧
    (get_potential s).data 0 = ((0.25 * s.barrier_energy * 2 * Real.sqrt 3 : ℝ) : ℂ) ∧
    (get_potential s).data 1 = ((0.25 * s.barrier_energy * (-1) * Real.sqrt 3 : ℝ) : ℂ) ∧
    (get_potential s).data 2 = ((0.25 * s.barrier_energy * (-1) * Real.sqrt 3 : ℝ) : ℂ) ∧
    get_potential s = get_potential t := by
  subst h
  refine ⟨rfl, rfl, rfl, ?_, ?_, ?_, rfl⟩ <;> simp [get_potential, potentialCoeff]

/-- Witness for get_potential_formula at the hydrogen-on-nickel preset. -/
theorem get_potential_formula_checked :
    (get_potential HYDROGEN_NICKEL_SYSTEM).basis.n = 3 :=
  (get_potential_formula HYDROGEN_NICKEL_SYSTEM HYDROGEN_NICKEL_SYSTEM rfl).2.1

/-- C8: calling the Hamiltonian assembler with the Bloch fraction unspecified
returns exactly the same Hamiltonian operator as calling it with the zero
Bloch fraction (the Gamma point). -/
theorem full_hamiltonian_default_gamma (s : PeriodicSystem) (shape resolution : ℕ) :
    get_full_hamiltonian s shape resolution none =
      get_full_hamiltonian s shape resolution (some 0) := rfl

/-- C10: every per-Bloch-fraction Hamiltonian used inside
get_bloch_wavefunctions is built over a single unit cell (shape 1) at
config.resolution, and the size of the matrix diagonalized at each Bloch
point equals config.resolution, independent of config.shape. -/
theorem hamiltonian_generator_unit_cell (s : PeriodicSystem)
    (cfg : PeriodicSystemConfig) :
    (∀ kappa, hamiltonian_generator s cfg kappa =
        get_full_hamiltonian s 1 cfg.resolution (some kappa)) ∧
    ∀ i, ((get_bloch_wavefunctions s cfg).hamiltonianAt i).size = cfg.resolution := by
  refine ⟨fun _ => rfl, fun i => ?_⟩
  simp [get_bloch_wavefunctions, generate_wavepacket, hamiltonian_generator,
    get_full_hamiltonian, total_surface_hamiltonian, convert_potential_to_position,
    get_extended_interpolated_potential, get_interpolated_potential,
    convert_potential_to_basis, fundamentalMomentumBasis, get_potential]

/-- C1: for every unit-normalized initial state and every evenly spaced time
basis, every state returned by solve_schrodinger_equation has squared L2 norm
equal to 1 at every output time (exact in the real-arithmetic model; the
floating-point tolerance of the claim becomes equality). -/
theorem schrodinger_solution_norm_one (H : DiagonalHamiltonian)
    (initial : StateVector) (times : EvenlySpacedTimeBasis)
    (hnorm : calculate_normalization initial = 1) :
    ∀ ti, calculate_normalization (solve_schrodinger_equation H initial times ti) = 1 := by
  intro ti
  rw [← hnorm]
  unfold calculate_normalization solve_schrodinger_equation
    solve_schrodinger_equation_diagonal
  refine Finset.sum_congr rfl fun k _ => ?_
  rw [map_mul, Complex.abs_exp_ofReal_mul_I, mul_one]

/-- Witness for schrodinger_solution_norm_one: a concrete one-component state. -/
theorem schrodinger_solution_norm_one_checked :
    calculate_normalization
      (solve_schrodinger_equation ⟨1, fun _ => 0⟩ ⟨1, fun _ => 1⟩ ⟨1, 1, 0, 1⟩ 0) = 1 :=
  schrodinger_solution_norm_one ⟨1, fun _ => 0⟩ ⟨1, fun _ => 1⟩ ⟨1, 1, 0, 1⟩
    (by simp [calculate_normalization]) 0

/-- C2 counterexample: on the time basis EvenlySpacedTimeBasis(2, 1, 1, 2),
whose first time is the nonzero offset contribution 1 and whose spacing
between consecutive time points is 1, get_gaussian_fit with a converged fit of
decay time b = 1 (index units) returns decay time 2, not b * spacing = 1: the
source multiplies by times.times[1] (= 2 here), not by the grid spacing. -/
theorem gaussian_fit_offset_counterexample :
    ((⟨2, 1, 1, 2⟩ : EvenlySpacedTimeBasis).times 1 -
        (⟨2, 1, 1, 2⟩ : EvenlySpacedTimeBasis).times 0) = 1 ∧
    (⟨2, 1, 1, 2⟩ : EvenlySpacedTimeBasis).times 0 ≠ 0 ∧
    (get_gaussian_fit ⟨⟨2, 1, 1, 2⟩, fun _ => 0⟩ ⟨1, 0, 1, 0⟩).2.2.1 = 2 ∧
    (get_gaussian_fit ⟨⟨2, 1, 1, 2⟩, fun _ => 0⟩ ⟨1, 0, 1, 0⟩).2.2.1 ≠
      1 * ((⟨2, 1, 1, 2⟩ : EvenlySpacedTimeBasis).times 1 -
        (⟨2, 1, 1, 2⟩ : EvenlySpacedTimeBasis).times 0) := by
  refine ⟨?_, ?_, ?_, ?_⟩ <;> norm_num [get_gaussian_fit, EvenlySpacedTimeBasis.times]

/-- C2 amended: get_gaussian_fit returns (a, sqrt cov00, b * times.times 1,
sqrt cov11 * times.times 1), multiplying the index-unit decay parameters by
the second time point of the grid; when the grid's first time is zero (zero
offset) that factor equals the step between consecutive time points, so the
decay time is rescaled by the time-grid spacing. -/
theorem gaussian_fit_rescale (values : ValueListData) (fit : CurveFitResult)
    (hoff : values.basis.offset = 0) :
    get_gaussian_fit values fit =
      (fit.a, Real.sqrt fit.cov00,
        fit.b * (values.basis.times 1 - values.basis.times 0),
        Real.sqrt fit.cov11 * (values.basis.times 1 - values.basis.times 0)) := by
  have h0 : values.basis.times 0 = 0 := by
    simp [EvenlySpacedTimeBasis.times, hoff]
  simp [get_gaussian_fit, h0]

/-- Witness for gaussian_fit_rescale: the spec scenario of 50 points with
step 1e-13 and zero offset; a converged fit with amplitude 2.0 and index-unit
decay 10 yields returned amplitude 2.0 and decay time 10e-13 = 1e-12. -/
theorem gaussian_fit_rescale_checked :
    (get_gaussian_fit ⟨⟨50, 1, 0, 5e-12⟩, fun _ => 0⟩ ⟨2, 0, 10, 0⟩).1 = 2 ∧
    (get_gaussian_fit ⟨⟨50, 1, 0, 5e-12⟩, fun _ => 0⟩ ⟨2, 0, 10, 0⟩).2.2.1 = 1e-12 := by
  have h := gaussian_fit_rescale ⟨⟨50, 1, 0, 5e-12⟩, fun _ => 0⟩ ⟨2, 0, 10, 0⟩ rfl
  rw [h]
  norm_num [EvenlySpacedTimeBasis.times]

/-- C5: get_bloch_wavefunctions sweeps a Bloch-fraction grid whose list basis
has exactly config.shape samples, diagonalizes at sample i the Bloch
Hamiltonian generated at the i-th grid fraction, and retains per grid point
the save_bands = EvenlySpacedBasis(config.n_bands, 1, 0) eigenpairs, whose
band indices are exactly 0, 1, ..., n_bands - 1. -/
theorem bloch_wavefunctions_sweep (s : PeriodicSystem) (cfg : PeriodicSystemConfig)
    (hshape : 0 < cfg.shape) (hres : 0 < cfg.resolution) (hbands : 0 < cfg.n_bands) :
    (get_bloch_wavefunctions s cfg).listSize = cfg.shape ∧
    (get_bloch_wavefunctions s cfg).bands = ⟨cfg.n_bands, 1, 0⟩ ∧
    (∀ j, (get_bloch_wavefunctions s cfg).bandIndex j = j) ∧
    ∀ i, (get_bloch_wavefunctions s cfg).hamiltonianAt i =
      hamiltonian_generator s cfg (blochFractionAt cfg.shape i) := by
  refine ⟨rfl, rfl, fun j => ?_, fun i => rfl⟩
  simp [BlochWavefunctionList.bandIndex, get_bloch_wavefunctions, generate_wavepacket]

/-- Witness for bloch_wavefunctions_sweep at a concrete positive config. -/
theorem bloch_wavefunctions_sweep_checked :
    (get_bloch_wavefunctions HYDROGEN_NICKEL_SYSTEM ⟨2, 3, 1, 155⟩).listSize = 2 :=
  (bloch_wavefunctions_sweep HYDROGEN_NICKEL_SYSTEM ⟨2, 3, 1, 155⟩
    (by norm_num) (by norm_num) (by norm_num)).1

/-- Helper: the extended cell of the step/gaussian samplers has
resolution * shape fundamental position points. -/
theorem extendedCellSize_eq (s : PeriodicSystem) (cfg : PeriodicSystemConfig) :
    extendedCellSize s cfg = cfg.resolution * cfg.shape := by
  simp [extendedCellSize, get_extended_interpolated_potential,
    get_interpolated_potential, convert_potential_to_basis,
    fundamentalMomentumBasis, get_potential]

/-- Helper: get_step_state returns the explicit step state whenever the site
count fits inside the basis. -/
theorem get_step_state_eq_some (s : PeriodicSystem) (cfg : PeriodicSystemConfig)
    (fraction : Option ℚ)
    (h : stepCount fraction (extendedCellSize s cfg) ≤ extendedCellSize s cfg) :
    get_step_state s cfg fraction =
      some ⟨extendedCellSize s cfg, fun i =>
        if i < stepCount fraction (extendedCellSize s cfg) then
          (((Real.sqrt ((stepCount fraction (extendedCellSize s cfg) : ℕ) : ℝ))⁻¹ : ℝ) : ℂ)
        else 0⟩ := by
  simp only [get_step_state]
  rw [if_pos h]

/-- C6 amended: for every system, config, and fraction argument that is None
or a positive number, whenever n = int(fraction * N) (n = 1 for None)
satisfies 1 ≤ n and additionally n ≤ N — the bound the claim omits —
get_step_state returns a state whose first n coefficients equal 1 / sqrt n,
whose remaining N - n coefficients are zero, and whose squared coefficient
magnitudes sum to 1.  For n > N the source raises IndexError instead of
returning a state (see the counterexample). -/
theorem step_state_formula (s : PeriodicSystem) (cfg : PeriodicSystemConfig)
    (fraction : Option ℚ)
    (h1 : 1 ≤ stepCount fraction (extendedCellSize s cfg))
    (h2 : stepCount fraction (extendedCellSize s cfg) ≤ extendedCellSize s cfg) :
    ∃ st, get_step_state s cfg fraction = some st ∧
      st.size = extendedCellSize s cfg ∧
      (∀ i, i < stepCount fraction (extendedCellSize s cfg) →
        st.data i =
          (((Real.sqrt ((stepCount fraction (extendedCellSize s cfg) : ℕ) : ℝ))⁻¹ : ℝ) : ℂ)) ∧
      (∀ i, stepCount fraction (extendedCellSize s cfg) ≤ i → st.data i = 0) ∧
      calculate_normalization st = 1 := by
  classical
  refine ⟨_, get_step_state_eq_some s cfg fraction h2, rfl, ?_, ?_, ?_⟩
  · intro i hi
    simp only [if_pos hi]
  · intro i hi
    simp only [if_neg (Nat.not_lt.mpr hi)]
  · unfold calculate_normalization
    have hterm : ∀ i ∈ Finset.range (extendedCellSize s cfg),
        Complex.abs (if i < stepCount fraction (extendedCellSize s cfg) then
          (((Real.sqrt ((stepCount fraction (extendedCellSize s cfg) : ℕ) : ℝ))⁻¹ : ℝ) : ℂ)
        else 0) ^ 2 =
        if i < stepCount fraction (extendedCellSize s cfg) then
          ((stepCount fraction (extendedCellSize s cfg) : ℕ) : ℝ)⁻¹
        else 0 := by
      intro i _
      by_cases hi : i < stepCount fraction (extendedCellSize s cfg)
      · rw [if_pos hi, if_pos hi, Complex.abs_ofReal,
          abs_of_nonneg (by positivity), ← Real.sqrt_inv,
          Real.sq_sqrt (by positivity)]
      · rw [if_neg hi, if_neg hi, map_zero]
        norm_num
    rw [Finset.sum_congr rfl hterm]
    rw [(Finset.sum_subset (Finset.range_subset.mpr h2) ?_).symm]
    · rw [Finset.sum_congr rfl fun i hi => if_pos (Finset.mem_range.mp hi),
        Finset.sum_const, Finset.card_range, nsmul_eq_mul, mul_inv_cancel₀]
      exact Nat.cast_ne_zero.mpr (by omega)
    · intro i _ hnot
      rw [if_neg (by simpa using hnot)]

/-- Witness for step_state_formula: hydrogen on nickel, shape 1 and
resolution 2 (so N = 2), fraction 1/2, hence a single occupied site. -/
theorem step_state_formula_checked :
    ∃ st, get_step_state HYDROGEN_NICKEL_SYSTEM ⟨1, 2, 1, 155⟩ (some (1 / 2)) = some st ∧
      calculate_normalization st = 1 := by
  have hN : extendedCellSize HYDROGEN_NICKEL_SYSTEM ⟨1, 2, 1, 155⟩ = 2 :=
    extendedCellSize_eq HYDROGEN_NICKEL_SYSTEM ⟨1, 2, 1, 155⟩
  have hc : stepCount (some (1 / 2)) 2 = 1 := by
    norm_num [stepCount]
  obtain ⟨st, ha, _, _, _, hb⟩ :=
    step_state_formula HYDROGEN_NICKEL_SYSTEM ⟨1, 2, 1, 155⟩ (some (1 / 2))
      (by rw [hN, hc]) (by rw [hN, hc]; norm_num)
  exact ⟨st, ha, hb⟩

/-- C6 counterexample: with shape 1 and resolution 2 the extended cell has
N = 2 sites; the fraction 2 is positive and int(fraction * N) = 4 ≥ 1, yet
the source raises IndexError (the fill loop assigns data[2] of a length-2
numpy array), modelled as none: no state with the claimed coefficients is
returned, refuting the claim at this input. -/
theorem step_state_overflow_counterexample :
    extendedCellSize HYDROGEN_NICKEL_SYSTEM ⟨1, 2, 1, 155⟩ = 2 ∧
    stepCount (some 2) (extendedCellSize HYDROGEN_NICKEL_SYSTEM ⟨1, 2, 1, 155⟩) = 4 ∧
    get_step_state HYDROGEN_NICKEL_SYSTEM ⟨1, 2, 1, 155⟩ (some 2) = none := by
  have hN : extendedCellSize HYDROGEN_NICKEL_SYSTEM ⟨1, 2, 1, 155⟩ = 2 :=
    extendedCellSize_eq HYDROGEN_NICKEL_SYSTEM ⟨1, 2, 1, 155⟩
  have hc : stepCount (some 2) (extendedCellSize HYDROGEN_NICKEL_SYSTEM ⟨1, 2, 1, 155⟩) = 4 := by
    rw [hN]
    norm_num [stepCount]
    decide
  refine ⟨hN, hc, ?_⟩
  simp only [get_step_state]
  rw [if_neg]
  rw [hc, hN]
  norm_num

/-- C9: for every fraction with 0 ≤ fraction and int(fraction * N) = 0,
get_step_state returns (without error) a state whose coefficient vector is
identically zero; its squared L2 norm is 0, not 1. -/
theorem step_state_zero_sites (s : PeriodicSystem) (cfg : PeriodicSystemConfig)
    (f : ℚ) (hf : 0 ≤ f)
    (h0 : stepCount (some f) (extendedCellSize s cfg) = 0) :
    ∃ st, get_step_state s cfg (some f) = some st ∧
      (∀ i, st.data i = 0) ∧
      calculate_normalization st = 0 ∧
      calculate_normalization st ≠ 1 := by
  refine ⟨_, get_step_state_eq_some s cfg (some f) (by omega), ?_, ?_, ?_⟩
  · intro i
    simp only [h0, Nat.not_lt_zero, if_neg, if_false]
  · unfold calculate_normalization
    refine Finset.sum_eq_zero fun i _ => ?_
    simp only [h0, Nat.not_lt_zero, if_false, map_zero]
    norm_num
  · intro hcontra
    rw [show calculate_normalization _ = 0 from ?_] at hcontra
    · exact one_ne_zero hcontra.symm
    · unfold calculate_normalization
      refine Finset.sum_eq_zero fun i _ => ?_
      simp only [h0, Nat.not_lt_zero, if_false, map_zero]
      norm_num

/-- Witness for step_state_zero_sites: fraction 1/4 on a two-site extended
cell, int(1/4 * 2) = 0. -/
theorem step_state_zero_sites_checked :
    ∃ st, get_step_state HYDROGEN_NICKEL_SYSTEM ⟨1, 2, 1, 155⟩ (some (1 / 4)) = some st ∧
      calculate_normalization st = 0 := by
  have hN : extendedCellSize HYDROGEN_NICKEL_SYSTEM ⟨1, 2, 1, 155⟩ = 2 :=
    extendedCellSize_eq HYDROGEN_NICKEL_SYSTEM ⟨1, 2, 1, 155⟩
  obtain ⟨st, ha, _, hb, _⟩ :=
    step_state_zero_sites HYDROGEN_NICKEL_SYSTEM ⟨1, 2, 1, 155⟩ (1 / 4)
      (by norm_num) (by rw [hN]; norm_num [stepCount])
  exact ⟨st, ha, hb⟩

/-- Helper: the Gaussian envelope is strictly positive. -/
theorem gaussianEnvelope_pos (N : ℕ) (f : ℝ) (i : ℕ) : 0 < gaussianEnvelope N f i :=
  Real.exp_pos _

/-- The computed normalization of the raw (pre-division) Gaussian state: the
sum of the squared envelope values. -/
def gaussianNormSq (s : PeriodicSystem) (cfg : PeriodicSystemConfig) (fraction : ℝ) : ℝ :=
  ∑ j in Finset.range (extendedCellSize s cfg),
    gaussianEnvelope (extendedCellSize s cfg) fraction j ^ 2

/-- Helper: each coefficient of get_gaussian_state is the envelope divided by
the square root of the computed normalization of the raw envelope state. -/
theorem get_gaussian_state_data (s : PeriodicSystem) (cfg : PeriodicSystemConfig)
    (fraction : ℝ) (i : ℕ) :
    (get_gaussian_state s cfg fraction).data i =
      ((gaussianEnvelope (extendedCellSize s cfg) fraction i /
        Real.sqrt (gaussianNormSq s cfg fraction) : ℝ) : ℂ) := by
  have hnorm : calculate_normalization ⟨extendedCellSize s cfg, fun j =>
      ((gaussianEnvelope (extendedCellSize s cfg) fraction j : ℝ) : ℂ)⟩ =
      gaussianNormSq s cfg fraction := by
    unfold calculate_normalization gaussianNormSq
    refine Finset.sum_congr rfl fun j _ => ?_
    rw [Complex.abs_ofReal, sq_abs]
  show ((gaussianEnvelope (extendedCellSize s cfg) fraction i : ℝ) : ℂ) /
      ((Real.sqrt (calculate_normalization ⟨extendedCellSize s cfg, fun j =>
        ((gaussianEnvelope (extendedCellSize s cfg) fraction j : ℝ) : ℂ)⟩) : ℝ) : ℂ) = _
  rw [hnorm, Complex.ofReal_div]

/-- C7: for every system, config with a nonempty extended cell, and positive
fraction, get_gaussian_state returns a state over the extended cell's
fundamental position basis of size N whose i-th coefficient is proportional
(with one positive constant) to exp(-(i - N/2)^2 / (2 (fraction N)^2)) — the
real-space Gaussian envelope centered at the middle of the cell of width
fraction * N — obtained by dividing the envelope by the square root of its
computed normalization, so the squared coefficient magnitudes sum to 1. -/
theorem gaussian_state_normalized (s : PeriodicSystem) (cfg : PeriodicSystemConfig)
    (fraction : ℝ) (hf : 0 < fraction) (hN : 0 < extendedCellSize s cfg) :
    (get_gaussian_state s cfg fraction).size = extendedCellSize s cfg ∧
    (∀ i, (get_gaussian_state s cfg fraction).data i =
      ((gaussianEnvelope (extendedCellSize s cfg) fraction i /
        Real.sqrt (gaussianNormSq s cfg fraction) : ℝ) : ℂ)) ∧
    (∃ c : ℝ, 0 < c ∧ ∀ i, (get_gaussian_state s cfg fraction).data i =
      ((c * gaussianEnvelope (extendedCellSize s cfg) fraction i : ℝ) : ℂ)) ∧
    calculate_normalization (get_gaussian_state s cfg fraction) = 1 := by
  have hSpos : 0 < gaussianNormSq s cfg fraction := by
    refine Finset.sum_pos
      (fun i _ => pow_pos (gaussianEnvelope_pos (extendedCellSize s cfg) fraction i) 2)
      (Finset.nonempty_range_iff.mpr ?_)
    omega
  have hsqrt : 0 < Real.sqrt (gaussianNormSq s cfg fraction) := Real.sqrt_pos.mpr hSpos
  refine ⟨rfl, get_gaussian_state_data s cfg fraction,
    ⟨(Real.sqrt (gaussianNormSq s cfg fraction))⁻¹, inv_pos.mpr hsqrt, fun i => ?_⟩, ?_⟩
  · rw [get_gaussian_state_data s cfg fraction i]
    exact congrArg Complex.ofReal (by rw [div_eq_mul_inv, mul_comm])
  · unfold calculate_normalization
    have hterm : ∀ i ∈ Finset.range (get_gaussian_state s cfg fraction).size,
        Complex.abs ((get_gaussian_state s cfg fraction).data i) ^ 2 =
          gaussianEnvelope (extendedCellSize s cfg) fraction i ^ 2 /
            gaussianNormSq s cfg fraction := by
      intro i _
      rw [get_gaussian_state_data s cfg fraction i, Complex.abs_ofReal,
        abs_of_nonneg (div_nonneg
          (gaussianEnvelope_pos (extendedCellSize s cfg) fraction i).le
          (Real.sqrt_nonneg _)),
        div_pow, Real.sq_sqrt hSpos.le]
    rw [Finset.sum_congr rfl hterm]
    show (∑ i in Finset.range (extendedCellSize s cfg),
      gaussianEnvelope (extendedCellSize s cfg) fraction i ^ 2 /
        gaussianNormSq s cfg fraction) = 1
    rw [← Finset.sum_div]
    show gaussianNormSq s cfg fraction / gaussianNormSq s cfg fraction = 1
    exact div_self hSpos.ne'

/-- Witness for gaussian_state_normalized on a one-point extended cell. -/
theorem gaussian_state_normalized_checked :
    calculate_normalization
      (get_gaussian_state HYDROGEN_NICKEL_SYSTEM ⟨1, 1, 1, 155⟩ (1 / 2)) = 1 :=
  (gaussian_state_normalized HYDROGEN_NICKEL_SYSTEM ⟨1, 1, 1, 155⟩ (1 / 2)
    (by norm_num)
    (by rw [extendedCellSize_eq]; norm_num)).2.2.2

/-- Helper: FFT-layout frequencies are injective on the index range. -/
theorem freqZ_inj {n i j : ℕ} (hi : i < n) (hj : j < n)
    (h : freqZ i n = freqZ j n) : i = j := by
  unfold freqZ at h
  split_ifs at h <;> omega

/-- Helper: a sum over the index range of terms guarded by a frequency match
collapses to the unique matching index. -/
theorem sum_if_freqZ_eq (n : ℕ) (f : ℕ → ℂ) (v : ℤ) (j0 : ℕ)
    (hj0 : j0 < n) (hval : freqZ j0 n = v) :
    (∑ j in Finset.range n, if freqZ j n = v then f j else 0) = f j0 := by
  rw [Finset.sum_eq_single j0]
  · rw [if_pos hval]
  · intro b hb hbne
    refine if_neg fun hbv => hbne ?_
    exact freqZ_inj (Finset.mem_range.mp hb) hj0 (by rw [hbv, hval])
  · intro hj0n
    exact absurd (Finset.mem_range.mpr hj0) hj0n

/-- Helper: frequency 0 sits at index 0. -/
theorem freqZ_zero (n : ℕ) (hn : 1 ≤ n) : freqZ 0 n = 0 := by
  unfold freqZ
  split_ifs <;> omega

/-- Helper: frequency 1 sits at index 1 once n is at least 3. -/
theorem freqZ_one (n : ℕ) (hn : 3 ≤ n) : freqZ 1 n = 1 := by
  unfold freqZ
  split_ifs <;> omega

/-- Helper: frequency -1 sits at the last index once n is at least 3. -/
theorem freqZ_last (n : ℕ) (hn : 3 ≤ n) : freqZ (n - 1) n = -1 := by
  unfold freqZ
  split_ifs <;> omega

/-- Helper: the definitional shape of the round-trip data. -/
theorem roundtrip_data_eq (s : PeriodicSystem) (res : ℕ) (t : ℕ) :
    (convert_potential_to_basis (get_interpolated_potential s res)
      (get_potential s).basis).data t =
      (if t < 3 then
        ((Real.sqrt (((3 : ℕ) : ℝ) / ((res : ℕ) : ℝ)) : ℝ) : ℂ) *
          ∑ j in Finset.range res,
            (if freqZ j res = freqZ t 3 then (get_interpolated_potential s res).data j else 0)
      else 0) := rfl

/-- Helper: the definitional shape of the interpolated data. -/
theorem interpolated_data_eq (s : PeriodicSystem) (res : ℕ) (j : ℕ) :
    (get_interpolated_potential s res).data j =
      (if j < res then
        ((Real.sqrt (((res : ℕ) : ℝ) / ((res : ℕ) : ℝ)) : ℝ) : ℂ) *
          ∑ i in Finset.range 3,
            (if freqZ i 3 = freqZ j res then
              (get_potential s).data i * ((Real.sqrt (((res : ℕ) : ℝ) / ((3 : ℕ) : ℝ)) : ℝ) : ℂ)
            else 0)
      else 0) := rfl

/-- Helper: the round trip reproduces the stored coefficient at t whenever the
finer grid has an index j0 carrying the same frequency as t. -/
theorem roundtrip_data_aux (s : PeriodicSystem) (res : ℕ) (h3 : 3 ≤ res)
    (t j0 : ℕ) (ht : t < 3) (hj0 : j0 < res) (hfreq : freqZ j0 res = freqZ t 3) :
    (convert_potential_to_basis (get_interpolated_potential s res)
      (get_potential s).basis).data t = (get_potential s).data t := by
  have hresr : ((res : ℕ) : ℝ) ≠ 0 := Nat.cast_ne_zero.mpr (by omega)
  have h3r : (((3 : ℕ) : ℕ) : ℝ) ≠ 0 := by norm_num
  have h1 : (get_interpolated_potential s res).data j0 =
      ((Real.sqrt (((res : ℕ) : ℝ) / ((res : ℕ) : ℝ)) : ℝ) : ℂ) *
        ((get_potential s).data t *
          ((Real.sqrt (((res : ℕ) : ℝ) / ((3 : ℕ) : ℝ)) : ℝ) : ℂ)) := by
    rw [interpolated_data_eq, if_pos hj0, hfreq,
      sum_if_freqZ_eq 3 _ (freqZ t 3) t ht rfl]
  rw [roundtrip_data_eq, if_pos ht,
    sum_if_freqZ_eq res _ (freqZ t 3) j0 hj0 hfreq, h1]
  have hr : Real.sqrt (((3 : ℕ) : ℝ) / ((res : ℕ) : ℝ)) *
      (Real.sqrt (((res : ℕ) : ℝ) / ((res : ℕ) : ℝ)) *
        Real.sqrt (((res : ℕ) : ℝ) / ((3 : ℕ) : ℝ))) = 1 := by
    rw [← Real.sqrt_mul (by positivity), ← Real.sqrt_mul (by positivity)]
    rw [show ((3 : ℕ) : ℝ) / ((res : ℕ) : ℝ) *
        (((res : ℕ) : ℝ) / ((res : ℕ) : ℝ) * (((res : ℕ) : ℝ) / ((3 : ℕ) : ℝ))) = 1 by
      field_simp]
    exact Real.sqrt_one
  have hsplit : ((Real.sqrt (((3 : ℕ) : ℝ) / ((res : ℕ) : ℝ)) : ℝ) : ℂ) *
      (((Real.sqrt (((res : ℕ) : ℝ) / ((res : ℕ) : ℝ)) : ℝ) : ℂ) *
        ((get_potential s).data t *
          ((Real.sqrt (((res : ℕ) : ℝ) / ((3 : ℕ) : ℝ)) : ℝ) : ℂ))) =
      ((Real.sqrt (((3 : ℕ) : ℝ) / ((res : ℕ) : ℝ)) *
        (Real.sqrt (((res : ℕ) : ℝ) / ((res : ℕ) : ℝ)) *
          Real.sqrt (((res : ℕ) : ℝ) / ((3 : ℕ) : ℝ))) : ℝ) : ℂ) *
        (get_potential s).data t := by
    push_cast
    ring
  rw [hsplit, hr]
  simp

/-- Helper: beyond the three stored coefficients both sides vanish. -/
theorem roundtrip_data_ge (s : PeriodicSystem) (res t : ℕ) (ht : 3 ≤ t) :
    (convert_potential_to_basis (get_interpolated_potential s res)
      (get_potential s).basis).data t = (get_potential s).data t := by
  rw [roundtrip_data_eq, if_neg (by omega)]
  have hc : potentialCoeff t = 0 := by
    unfold potentialCoeff
    rw [if_neg (by omega), if_neg (by omega), if_neg (by omega)]
  simp [get_potential, hc]

/-- C3 amended: for every system and every resolution of at least 3 (the size
of the original plane-wave basis), converting the interpolated potential back
to the original 3-coefficient basis reproduces the original potential
exactly — basis and every data entry.  For resolution 1 or 2 the finer grid
cannot carry all three original plane waves and the round trip loses the
truncated coefficients (see the counterexample). -/
theorem interpolated_potential_roundtrip (s : PeriodicSystem) (res : ℕ)
    (h3 : 3 ≤ res) :
    (convert_potential_to_basis (get_interpolated_potential s res)
      (get_potential s).basis).basis = (get_potential s).basis ∧
    ∀ t, (convert_potential_to_basis (get_interpolated_potential s res)
      (get_potential s).basis).data t = (get_potential s).data t := by
  refine ⟨rfl, fun t => ?_⟩
  by_cases ht : t < 3
  · interval_cases t
    · exact roundtrip_data_aux s res h3 0 0 (by omega) (by omega)
        (by rw [freqZ_zero res (by omega)]; decide)
    · exact roundtrip_data_aux s res h3 1 1 (by omega) (by omega)
        (by rw [freqZ_one res h3]; decide)
    · exact roundtrip_data_aux s res h3 2 (res - 1) (by omega) (by omega)
        (by rw [freqZ_last res h3]; decide)
  · exact roundtrip_data_ge s res t (by omega)

/-- Witness for interpolated_potential_roundtrip at resolution 3. -/
theorem interpolated_potential_roundtrip_checked :
    (convert_potential_to_basis (get_interpolated_potential HYDROGEN_NICKEL_SYSTEM 3)
      (get_potential HYDROGEN_NICKEL_SYSTEM).basis).data 0 =
      (get_potential HYDROGEN_NICKEL_SYSTEM).data 0 :=
  (interpolated_potential_roundtrip HYDROGEN_NICKEL_SYSTEM 3 (by norm_num)).2 0

/-- C3 counterexample: at the positive resolution 1 the round trip of the
hydrogen-on-nickel potential returns 0 at index 1, while the original
coefficient there is -0.25 * barrier_energy * sqrt 3, nonzero: the claim
fails for resolution below 3. -/
theorem interpolated_potential_roundtrip_counterexample :
    (convert_potential_to_basis (get_interpolated_potential HYDROGEN_NICKEL_SYSTEM 1)
      (get_potential HYDROGEN_NICKEL_SYSTEM).basis).data 1 = 0 ∧
    (get_potential HYDROGEN_NICKEL_SYSTEM).data 1 ≠ 0 := by
  constructor
  · rw [roundtrip_data_eq, if_pos (by norm_num), Finset.sum_range_one,
      if_neg (by decide), mul_zero]
  · simp only [get_potential, potentialCoeff, HYDROGEN_NICKEL_SYSTEM]
    norm_num
